import Mathlib

/-!
A shallow embedding of `src/src/main.rs` (a discrete-event simulator for a
single-stage queueing system), together with theorems settling the spec's
claims about it.

Modelling conventions:
* The Rust newtype `Time(u32)` is modelled as `Nat` holding `u32` values.
  Times are only compared (comparison on residues needs no modulus) and
  added once, when a successful `CallToServe` schedules its `Exit`: that
  `u32` addition wraps modulo `2^32` in a release build (and panics in a
  debug build), so the model performs it modulo `u32Mod = 2^32`, matching
  the release semantics; theorems that need a sum not to wrap carry an
  explicit `< u32Mod` hypothesis.
* `u32` counters are modelled as `Nat`.  `dec_buffer`/`dec_server` use
  truncated `Nat` subtraction where the Rust `-= 1` would panic on underflow
  in a debug build; the theorems below show the guards make underflow
  unreachable in the runs the claims quantify over.
* Rust's `sort_by_key(|e| Reverse(e.time))` is a stable sort by descending
  time.  A stable sort's output is uniquely determined by the input order and
  the key, so it is modelled by `List.insertionSort` (stable) with the
  relation `timeDesc`.
* `Vec::pop` removes the last element, so `EventMessageQueue.pop` takes the
  last element of `messages`.
-/

namespace Qute

/-- Simulation time (`struct Time(u32)` in the source): a `u32` value held
in a `Nat`. -/
abbrev Time := Nat

/-- `2^32`, the modulus of the source's `u32` arithmetic: the one addition
performed on times (scheduling an `Exit`) is a `u32` addition, which wraps
modulo this value in a release build. -/
def u32Mod : Nat := 4294967296

/-- The system state: time, buffer and server counts, and the static
capacities and service duration (`struct QueueState`). -/
structure QueueState where
  time : Time
  buffer_count : Nat
  buffer_capacity : Nat
  server_count : Nat
  server_capacity : Nat
  server_duration : Nat
deriving DecidableEq, Repr

/-- `QueueState::new`: an empty queue with the given static parameters. -/
def QueueState.new (buffer_capacity server_capacity server_duration : Nat) : QueueState :=
  { time := 0
    buffer_count := 0
    buffer_capacity := buffer_capacity
    server_count := 0
    server_capacity := server_capacity
    server_duration := server_duration }

/-- `QueueState::set_time`. -/
def QueueState.set_time (s : QueueState) (time : Time) : QueueState :=
  { s with time := time }

/-- `QueueState::inc_buffer`. -/
def QueueState.inc_buffer (s : QueueState) : QueueState :=
  { s with buffer_count := s.buffer_count + 1 }

/-- `QueueState::dec_buffer` (`buffer_count -= 1`; truncated subtraction
models the `u32` decrement, which the guards keep away from underflow). -/
def QueueState.dec_buffer (s : QueueState) : QueueState :=
  { s with buffer_count := s.buffer_count - 1 }

/-- `QueueState::inc_server`. -/
def QueueState.inc_server (s : QueueState) : QueueState :=
  { s with server_count := s.server_count + 1 }

/-- `QueueState::dec_server` (`server_count -= 1`; truncated subtraction
models the `u32` decrement, which is unconditional in the source). -/
def QueueState.dec_server (s : QueueState) : QueueState :=
  { s with server_count := s.server_count - 1 }

/-- `QueueState::can_buffer`: the buffer is under capacity. -/
def QueueState.can_buffer (s : QueueState) : Bool :=
  s.buffer_count < s.buffer_capacity

/-- `QueueState::can_serve`: the buffer is occupied and the server is under
capacity. -/
def QueueState.can_serve (s : QueueState) : Bool :=
  0 < s.buffer_count && s.server_count < s.server_capacity

/-- `enum EventMessageType`. -/
inductive EventMessageType where
  | Arrive
  | CallToServe
  | Exit
deriving DecidableEq, Repr

/-- `struct EventMessage`: a scheduled instruction, a kind plus a time. -/
structure EventMessage where
  event_message_type : EventMessageType
  time : Time
deriving DecidableEq, Repr

/-- The sort relation of `EventMessageQueue.push`: the Rust code sorts by the
key `Reverse(e.time)`, i.e. descending time, so `a` may precede `b` exactly
when `b.time ≤ a.time`. -/
def timeDesc (a b : EventMessage) : Prop := b.time ≤ a.time

instance : DecidableRel timeDesc := fun a b => Nat.decLe b.time a.time

instance : IsTotal EventMessage timeDesc := ⟨fun a b => Nat.le_total b.time a.time⟩

instance : IsTrans EventMessage timeDesc :=
  ⟨fun _ _ _ hab hbc => Nat.le_trans hbc hab⟩

/-- `struct EventMessageQueue`: the Instruction Queue, a vector of messages
plus a size counter. -/
structure EventMessageQueue where
  messages : List EventMessage
  size : Nat
deriving DecidableEq, Repr

/-- `EventMessageQueue::new`. -/
def EventMessageQueue.new : EventMessageQueue :=
  { messages := [], size := 0 }

/-- `EventMessageQueue::push`: append the message, then stable-sort the whole
vector by descending time (`sort_by_key(|e| Reverse(e.time))`), and bump the
size. -/
def EventMessageQueue.push (q : EventMessageQueue) (message : EventMessage) :
    EventMessageQueue :=
  { messages := List.insertionSort timeDesc (q.messages ++ [message])
    size := q.size + 1 }

/-- `EventMessageQueue::pop`: `Vec::pop` removes the last element of the
vector (the smallest time, since the vector is sorted descending). -/
def EventMessageQueue.pop (q : EventMessageQueue) :
    Option (EventMessage × EventMessageQueue) :=
  match q.messages.getLast? with
  | some e => some (e, { messages := q.messages.dropLast, size := q.size - 1 })
  | none => none

/-- `enum EventType`. -/
inductive EventType where
  | BufferIncremented
  | BufferDecremented
  | ServerIncremented
  | ServerDecremented
deriving DecidableEq, Repr

/-- `struct Event`: a recorded fact, a time plus a kind. -/
structure Event where
  time : Time
  event_type : EventType
deriving DecidableEq, Repr

/-- `struct EventLog`. -/
structure EventLog where
  contents : List Event
  size : Nat
deriving DecidableEq, Repr

/-- `EventLog::new`. -/
def EventLog.new : EventLog :=
  { contents := [], size := 0 }

/-- `EventLog::push`: append at the tail and bump the size. -/
def EventLog.push (log : EventLog) (event : Event) : EventLog :=
  { contents := log.contents ++ [event], size := log.size + 1 }

/-- `handle_message`: the Transition Function.  Maps a scheduled instruction
and the current state to the updated state, the follow-up instructions, and
the recorded events. -/
def handle_message (event_message : EventMessage) (queue_state : QueueState) :
    QueueState × List EventMessage × List Event :=
  match event_message.event_message_type with
  | EventMessageType.Arrive =>
    if queue_state.can_buffer then
      (queue_state.inc_buffer,
       [{ event_message_type := EventMessageType.CallToServe
          time := event_message.time }],
       [{ event_type := EventType.BufferIncremented
          time := event_message.time }])
    else
      (queue_state, [], [])
  | EventMessageType.CallToServe =>
    if queue_state.can_serve then
      (queue_state.dec_buffer.inc_server,
       [{ event_message_type := EventMessageType.Exit
          time := (event_message.time + queue_state.server_duration) % u32Mod }],
       [{ event_type := EventType.BufferDecremented
          time := event_message.time },
        { event_type := EventType.ServerIncremented
          time := event_message.time }])
    else
      (queue_state, [], [])
  | EventMessageType.Exit =>
    (queue_state.dec_server,
     [{ event_message_type := EventMessageType.CallToServe
        time := event_message.time }],
     [{ event_type := EventType.ServerDecremented
        time := event_message.time }])

/-- `step`: pop the earliest instruction (or signal completion), apply the
Transition Function, set the state's time to the popped instruction's time,
push every follow-up, and append every recorded event. -/
def step (emq : EventMessageQueue) (queue_state : QueueState)
    (event_log : EventLog) :
    Option (EventMessageQueue × QueueState × EventLog) :=
  match emq.pop with
  | some (event_message, emq) =>
    let hm := handle_message event_message queue_state
    let queue_state := hm.1.set_time event_message.time
    let emq := hm.2.1.foldl (fun acc em => acc.push em) emq
    let event_log := hm.2.2.foldl (fun acc e => acc.push e) event_log
    some (emq, queue_state, event_log)
  | none => none

/-- The three mutable pieces the driver loop threads through `step`. -/
structure SimConfig where
  emq : EventMessageQueue
  state : QueueState
  log : EventLog
deriving DecidableEq, Repr

/-- `step` acting on a bundled configuration. -/
def stepConfig (c : SimConfig) : Option SimConfig :=
  match step c.emq c.state c.log with
  | some (emq, state, log) => some { emq := emq, state := state, log := log }
  | none => none

/-- One iteration of the driver loop: apply `step` if the queue is nonempty,
otherwise stay put (the loop has terminated). -/
def optStep (c : SimConfig) : SimConfig :=
  match stepConfig c with
  | some c2 => c2
  | none => c

/-- `n` iterations of the driver loop. -/
def runSteps : Nat → SimConfig → SimConfig
  | 0, c => c
  | n + 1, c => runSteps n (optStep c)

/-- Seed the Instruction Queue with `Arrive` instructions at the given times
(the fold in `main`). -/
def seedArrivals (times : List Time) : EventMessageQueue :=
  times.foldl
    (fun acc t =>
      acc.push { event_message_type := EventMessageType.Arrive, time := t })
    EventMessageQueue.new

/-- The initial configuration of a run: a seeded queue, a fresh state with
the given parameters, and an empty log. -/
def initConfig (bcap scap dur : Nat) (times : List Time) : SimConfig :=
  { emq := seedArrivals times
    state := QueueState.new bcap scap dur
    log := EventLog.new }

/-- Pop every message out of a queue, in pop order. -/
def drainAux : Nat → EventMessageQueue → List EventMessage
  | 0, _ => []
  | n + 1, q =>
    match q.pop with
    | some (m, q2) => m :: drainAux n q2
    | none => []

/-- The sequence of messages obtained by popping a queue until it is empty. -/
def drain (q : EventMessageQueue) : List EventMessage :=
  drainAux q.messages.length q

/-- An operation on the Instruction Queue: a push of a given message, or a
pop. -/
inductive QOp where
  | push (m : EventMessage)
  | pop
deriving DecidableEq, Repr

/-- Apply one queue operation (a failed pop on an empty queue leaves the
queue unchanged). -/
def applyOp (q : EventMessageQueue) : QOp → EventMessageQueue
  | QOp.push m => q.push m
  | QOp.pop =>
    match q.pop with
    | some (_, q2) => q2
    | none => q

/-- Apply a sequence of queue operations starting from the empty queue. -/
def applyOps (ops : List QOp) : EventMessageQueue :=
  ops.foldl applyOp EventMessageQueue.new

/-- The number of `Exit` instructions in a list of messages. -/
def countExits (l : List EventMessage) : Nat :=
  (l.filter (fun m => m.event_message_type == EventMessageType.Exit)).length

/-- Termination weight of one instruction kind: an upper bound on the length
of the follow-up chain it can start without consuming buffer potential. -/
def msgWeight (t : EventMessageType) : Nat :=
  match t with
  | EventMessageType.Arrive => 5
  | EventMessageType.CallToServe => 2
  | EventMessageType.Exit => 3

/-- Total termination weight of the pending instructions. -/
def queueWeight (l : List EventMessage) : Nat :=
  (l.map (fun m => msgWeight m.event_message_type)).sum

/-- Termination measure of a configuration: pending-instruction weight plus
buffered potential (each buffered item can still fund one
`CallToServe`/`Exit` round). -/
def simMeasure (c : SimConfig) : Nat :=
  queueWeight c.emq.messages + 2 * c.state.buffer_count

/-- No pending instruction can make the `u32` Exit-scheduling addition
wrap: every pending time plus the service duration is below `2^32`. -/
def noWrap (c : SimConfig) : Prop :=
  ∀ x ∈ c.emq.messages, x.time + c.state.server_duration < u32Mod

instance (c : SimConfig) : Decidable (noWrap c) :=
  List.decidableBAll
    (fun x : EventMessage => x.time + c.state.server_duration < u32Mod) c.emq.messages

/-! ### Basic characterisations of `stepConfig` -/

/-- `stepConfig` signals completion exactly when the Instruction Queue is
empty. -/
theorem stepConfig_eq_none_iff {c : SimConfig} :
    stepConfig c = none ↔ c.emq.messages = [] := by
  cases h : c.emq.messages.getLast? with
  | none =>
    simp only [List.getLast?_eq_none_iff] at h
    simp [stepConfig, step, EventMessageQueue.pop, h]
  | some m =>
    constructor
    · intro hc
      simp [stepConfig, step, EventMessageQueue.pop, h] at hc
    · intro hc
      rw [hc] at h
      simp at h

/-- Unfolding `stepConfig` when the queue is nonempty: the last vector entry
is popped, `handle_message` runs, the state's time is set, and the follow-ups
and events are folded in. -/
theorem stepConfig_char {c : SimConfig} {m : EventMessage}
    (h : c.emq.messages.getLast? = some m) :
    stepConfig c = some
      { emq := (handle_message m c.state).2.1.foldl (fun acc em => acc.push em)
          { messages := c.emq.messages.dropLast, size := c.emq.size - 1 }
        state := (handle_message m c.state).1.set_time m.time
        log := (handle_message m c.state).2.2.foldl (fun acc e => acc.push e) c.log } := by
  simp [stepConfig, step, EventMessageQueue.pop, h]

/-- C5 counterexample: at `t = u32::MAX = 4294967295` with
`server_duration = 1` and a serving state, the `u32` addition wraps and the
scheduled `Exit` is at time 0, not at `t + server_duration = 4294967296`
(a debug build panics at the same input), so the transition does not
schedule the `Exit` at `t + server_duration`. -/
theorem callToServe_wrap_counterexample :
    (handle_message
        { event_message_type := EventMessageType.CallToServe, time := 4294967295 }
        (QueueState.new 1 1 1).inc_buffer).2.1 =
      [{ event_message_type := EventMessageType.Exit, time := 0 }] ∧
    ¬((handle_message
        { event_message_type := EventMessageType.CallToServe, time := 4294967295 }
        (QueueState.new 1 1 1).inc_buffer).2.1 =
      [{ event_message_type := EventMessageType.Exit, time := 4294967295 + 1 }]) := by
  decide

/-- C5 amended: on `CallToServe` at time `t`, if `can_serve` holds the
transition decrements the buffer and increments the server, emits exactly
`BufferDecremented@t` then `ServerIncremented@t`, and schedules exactly one
`Exit` at the `u32` sum `(t + server_duration) % 2^32` — equal to
`t + server_duration` whenever that sum does not wrap; if `can_serve` fails,
the state is unchanged and there are no follow-ups and no events. -/
theorem callToServe_transition (t : Time) (s : QueueState) :
    (s.can_serve = true →
      handle_message { event_message_type := EventMessageType.CallToServe, time := t } s =
        ({ s with buffer_count := s.buffer_count - 1, server_count := s.server_count + 1 },
         [{ event_message_type := EventMessageType.Exit,
            time := (t + s.server_duration) % u32Mod }],
         [{ time := t, event_type := EventType.BufferDecremented },
          { time := t, event_type := EventType.ServerIncremented }])) ∧
    (s.can_serve = true → t + s.server_duration < u32Mod →
      (handle_message
        { event_message_type := EventMessageType.CallToServe, time := t } s).2.1 =
        [{ event_message_type := EventMessageType.Exit, time := t + s.server_duration }]) ∧
    (s.can_serve = false →
      handle_message { event_message_type := EventMessageType.CallToServe, time := t } s =
        (s, [], [])) := by
  refine ⟨fun h => ?_, fun h h2 => ?_, fun h => ?_⟩
  · simp [handle_message, QueueState.dec_buffer, QueueState.inc_server, h]
  · simp [handle_message, h, Nat.mod_eq_of_lt h2]
  · simp [handle_message, h]

/-- Witness for C5 at a concrete serving state with a non-wrapping sum. -/
theorem callToServe_transition_witness :
    ((QueueState.new 1 1 10).inc_buffer.can_serve = true) ∧
    handle_message { event_message_type := EventMessageType.CallToServe, time := 3 }
        (QueueState.new 1 1 10).inc_buffer =
      ({ time := 0, buffer_count := 0, buffer_capacity := 1, server_count := 1,
         server_capacity := 1, server_duration := 10 },
       [{ event_message_type := EventMessageType.Exit, time := 13 }],
       [{ time := 3, event_type := EventType.BufferDecremented },
        { time := 3, event_type := EventType.ServerIncremented }]) ∧
    (handle_message { event_message_type := EventMessageType.CallToServe, time := 3 }
        (QueueState.new 1 1 10).inc_buffer).2.1 =
      [{ event_message_type := EventMessageType.Exit, time := 13 }] :=
  ⟨by decide,
    (callToServe_transition 3 (QueueState.new 1 1 10).inc_buffer).1 (by decide),
    (callToServe_transition 3 (QueueState.new 1 1 10).inc_buffer).2.1 (by decide)
      (by decide)⟩

/-- C6: on `Arrive` at time `t`, if `can_buffer` holds the transition
increments the buffer, emits exactly `BufferIncremented@t`, and schedules
exactly one `CallToServe@t`; if `can_buffer` fails, the arrival is discarded
with no state change, no follow-up and no event. -/
theorem arrive_transition (t : Time) (s : QueueState) :
    (s.can_buffer = true →
      handle_message { event_message_type := EventMessageType.Arrive, time := t } s =
        ({ s with buffer_count := s.buffer_count + 1 },
         [{ event_message_type := EventMessageType.CallToServe, time := t }],
         [{ time := t, event_type := EventType.BufferIncremented }])) ∧
    (s.can_buffer = false →
      handle_message { event_message_type := EventMessageType.Arrive, time := t } s =
        (s, [], [])) := by
  constructor <;> intro h <;>
    simp [handle_message, QueueState.inc_buffer, h]

/-- Witness for C6 at a concrete state with buffer room. -/
theorem arrive_transition_witness :
    ((QueueState.new 2 1 10).can_buffer = true) ∧
    handle_message { event_message_type := EventMessageType.Arrive, time := 7 }
        (QueueState.new 2 1 10) =
      ({ time := 0, buffer_count := 1, buffer_capacity := 2, server_count := 0,
         server_capacity := 1, server_duration := 10 },
       [{ event_message_type := EventMessageType.CallToServe, time := 7 }],
       [{ time := 7, event_type := EventType.BufferIncremented }]) :=
  ⟨by decide, (arrive_transition 7 (QueueState.new 2 1 10)).1 (by decide)⟩

/-- C9 counterexample: at `t = u32::MAX = 4294967295` with duration 1, the
scheduled `Exit` time is the wrapped `u32` sum 0, which is strictly earlier
than `t` (a debug build panics at the same input instead), so adding a
nonnegative service duration does not always yield a later or equal time. -/
theorem exit_time_wrap_counterexample :
    (handle_message
        { event_message_type := EventMessageType.CallToServe, time := 4294967295 }
        (QueueState.new 1 1 1).inc_buffer).2.1 =
      [{ event_message_type := EventMessageType.Exit, time := 0 }] ∧
    ¬((4294967295 : Time) ≤ 0) := by decide

/-- C9 amended: the `Exit` follow-up scheduled by a successful `CallToServe`
at time `t` is at the `u32` sum of `t` and `server_duration`; whenever that
sum does not wrap (stays below `2^32`) it equals `t + server_duration` and
is at or after `t`. -/
theorem exit_time_ge (t : Time) (s : QueueState) (h : s.can_serve = true)
    (h2 : t + s.server_duration < u32Mod) :
    (handle_message { event_message_type := EventMessageType.CallToServe, time := t } s).2.1 =
      [{ event_message_type := EventMessageType.Exit, time := t + s.server_duration }] ∧
    t ≤ t + s.server_duration := by
  refine ⟨?_, Nat.le_add_right t s.server_duration⟩
  simp [handle_message, h, Nat.mod_eq_of_lt h2]

/-- C8: when the popped instruction's guard fails (`Arrive` with a full
buffer, or `CallToServe` unable to serve), the only change `step` makes is
setting `state.time` to the popped instruction's time: counts, capacities and
duration are untouched, the log is untouched, the rest of the queue is
exactly the post-pop queue, and no follow-up is enqueued. -/
theorem guard_failure_frame (c : SimConfig) (m : EventMessage)
    (emq2 : EventMessageQueue) (hpop : c.emq.pop = some (m, emq2))
    (hguard :
      (m.event_message_type = EventMessageType.Arrive ∧ c.state.can_buffer = false) ∨
      (m.event_message_type = EventMessageType.CallToServe ∧ c.state.can_serve = false)) :
    stepConfig c =
      some { emq := emq2, state := { c.state with time := m.time }, log := c.log } := by
  obtain ⟨mt, mtime⟩ := m
  cases h : c.emq.messages.getLast? with
  | none => simp [EventMessageQueue.pop, h] at hpop
  | some m2 =>
    simp only [EventMessageQueue.pop, h, Option.some.injEq, Prod.mk.injEq] at hpop
    obtain ⟨hm2, hemq2⟩ := hpop
    rw [stepConfig_char (hm2 ▸ h)]
    rcases hguard with ⟨hk, hg⟩ | ⟨hk, hg⟩ <;> subst hk <;>
      simp [handle_message, hg, QueueState.set_time, hemq2]

/-- Witness for C8: buffer capacity 0, one seeded `Arrive@3`, whose guard
fails; the step only pops it and sets the time to 3. -/
theorem guard_failure_frame_witness :
    ((initConfig 0 1 1 [3]).emq.pop =
      some ({ event_message_type := EventMessageType.Arrive, time := 3 },
        { messages := [], size := 0 })) ∧
    stepConfig (initConfig 0 1 1 [3]) =
      some { emq := { messages := [], size := 0 }
             state := { time := 3, buffer_count := 0, buffer_capacity := 0,
                        server_count := 0, server_capacity := 1, server_duration := 1 }
             log := { contents := [], size := 0 } } :=
  ⟨by decide,
    guard_failure_frame (initConfig 0 1 1 [3])
      { event_message_type := EventMessageType.Arrive, time := 3 }
      { messages := [], size := 0 } (by decide) (Or.inl ⟨rfl, by decide⟩)⟩

/-- C2 counterexample: with buffer capacity 0 the failed `Arrive` schedules
NO follow-up `CallToServe` — `handle_message` returns an empty follow-up
list, the queue is already empty after the single step, and the next `step`
signals completion, so no `CallToServe@0` is ever enqueued or processed,
contrary to the claim's "its one follow-up CallToServe at time 0". -/
theorem scenario2_counterexample :
    (handle_message { event_message_type := EventMessageType.Arrive, time := 0 }
        (QueueState.new 0 1 1)).2.1 = [] ∧
    (runSteps 1 (initConfig 0 1 1 [0])).emq.messages = [] ∧
    stepConfig (runSteps 1 (initConfig 0 1 1 [0])) = none := by decide

/-- C2 amended: with buffer capacity 0 and a single seeded `Arrive@0`, the
arrival is discarded: the log ends empty, `buffer_count` stays 0, and the
queue is empty after the single `Arrive`, which produces no follow-up at all
(the guard fails, so no `CallToServe` is scheduled and the run is over). -/
theorem scenario2_discard (scap dur : Nat) :
    (runSteps 1 (initConfig 0 scap dur [0])).log.contents = [] ∧
    (runSteps 1 (initConfig 0 scap dur [0])).state.buffer_count = 0 ∧
    (runSteps 1 (initConfig 0 scap dur [0])).emq.messages = [] ∧
    stepConfig (runSteps 1 (initConfig 0 scap dur [0])) = none ∧
    (handle_message { event_message_type := EventMessageType.Arrive, time := 0 }
        (QueueState.new 0 scap dur)).2.1 = [] :=
  ⟨rfl, rfl, rfl, rfl, rfl⟩

/-- C1 counterexample: two distinct instructions pushed with equal time 0;
the first pop returns the instruction inserted second, so instructions
sharing a time are not yielded first-in-first-out. -/
theorem tie_break_counterexample :
    (applyOps
        [QOp.push { event_message_type := EventMessageType.Arrive, time := 0 },
         QOp.push { event_message_type := EventMessageType.CallToServe, time := 0 }]).pop =
      some ({ event_message_type := EventMessageType.CallToServe, time := 0 },
        { messages := [{ event_message_type := EventMessageType.Arrive, time := 0 }]
          size := 1 }) ∧
    ({ event_message_type := EventMessageType.CallToServe, time := 0 } : EventMessage) ≠
      { event_message_type := EventMessageType.Arrive, time := 0 } := by decide

/-- Witness for C9 at a concrete serving state with a non-wrapping sum. -/
theorem exit_time_ge_witness :
    ((QueueState.new 1 1 10).inc_buffer.can_serve = true) ∧
    ((3 : Time) + (QueueState.new 1 1 10).inc_buffer.server_duration < u32Mod) ∧
    ((handle_message { event_message_type := EventMessageType.CallToServe, time := 3 }
        (QueueState.new 1 1 10).inc_buffer).2.1 =
      [{ event_message_type := EventMessageType.Exit, time := 13 }] ∧ (3 : Time) ≤ 13) :=
  ⟨by decide, by decide,
    exit_time_ge 3 (QueueState.new 1 1 10).inc_buffer (by decide) (by decide)⟩

/-! ### Ordering properties of the Instruction Queue -/

/-- A nonempty list is its `dropLast` followed by its last element. -/
theorem getLast?_decomp :
    ∀ {l : List EventMessage} {a : EventMessage},
      l.getLast? = some a → l = l.dropLast ++ [a] := by
  intro l
  induction l with
  | nil => intro a h; simp at h
  | cons x t ih =>
    intro a h
    cases t with
    | nil =>
      simp only [List.getLast?_singleton, Option.some.injEq] at h
      simp [h]
    | cons y s =>
      rw [List.getLast?_cons_cons] at h
      have hd := ih h
      calc x :: y :: s = x :: ((y :: s).dropLast ++ [a]) := by rw [← hd]
        _ = (x :: y :: s).dropLast ++ [a] := by simp

/-- In a vector sorted by descending time, the last element has minimal
time. -/
theorem sorted_getLast_min {l : List EventMessage}
    (hs : List.Sorted timeDesc l) {a : EventMessage}
    (h : l.getLast? = some a) : ∀ x ∈ l, a.time ≤ x.time := by
  intro x hx
  rw [getLast?_decomp h] at hx hs
  rcases List.mem_append.mp hx with hx2 | hx2
  · exact (List.pairwise_append.mp hs).2.2 x hx2 a (List.mem_singleton_self a)
  · rw [List.mem_singleton.mp hx2]

/-- Pushing always leaves the vector sorted by descending time. -/
theorem sorted_push (q : EventMessageQueue) (f : EventMessage) :
    List.Sorted timeDesc (q.push f).messages :=
  List.sorted_insertionSort timeDesc (q.messages ++ [f])

/-- Popping preserves sortedness of the vector. -/
theorem sorted_pop {q q2 : EventMessageQueue} {m : EventMessage}
    (hs : List.Sorted timeDesc q.messages) (h : q.pop = some (m, q2)) :
    List.Sorted timeDesc q2.messages := by
  cases hl : q.messages.getLast? with
  | none => simp [EventMessageQueue.pop, hl] at h
  | some a =>
    simp only [EventMessageQueue.pop, hl, Option.some.injEq, Prod.mk.injEq] at h
    rw [← h.2]
    exact List.Pairwise.sublist (List.dropLast_sublist q.messages) hs

/-- Applying any queue operation preserves sortedness. -/
theorem sorted_applyOp {q : EventMessageQueue}
    (hs : List.Sorted timeDesc q.messages) (op : QOp) :
    List.Sorted timeDesc (applyOp q op).messages := by
  cases op with
  | push f => exact sorted_push q f
  | pop =>
    unfold applyOp
    cases h : q.pop with
    | none => exact hs
    | some p => exact sorted_pop hs h

/-- Every queue reachable from the empty queue by pushes and pops has its
vector sorted by descending time. -/
theorem sorted_applyOps (ops : List QOp) :
    List.Sorted timeDesc (applyOps ops).messages := by
  suffices h : ∀ q, List.Sorted timeDesc q.messages →
      List.Sorted timeDesc (ops.foldl applyOp q).messages from
    h EventMessageQueue.new List.sorted_nil
  induction ops with
  | nil => intro q hq; exact hq
  | cons op rest ih => intro q hq; exact ih (applyOp q op) (sorted_applyOp hq op)

/-- Draining a queue yields exactly the reverse of its message vector. -/
theorem drainAux_eq_reverse :
    ∀ (n : Nat) (q : EventMessageQueue), q.messages.length ≤ n →
      drainAux n q = q.messages.reverse := by
  intro n
  induction n with
  | zero =>
    intro q h
    have : q.messages = [] := List.eq_nil_of_length_eq_zero (Nat.le_zero.mp h)
    simp [drainAux, this]
  | succ n ih =>
    intro q h
    cases hl : q.messages.getLast? with
    | none =>
      have hnil : q.messages = [] := List.getLast?_eq_none_iff.mp hl
      simp [drainAux, EventMessageQueue.pop, hl, hnil]
    | some a =>
      have hdec := getLast?_decomp hl
      have hstep : drainAux (n + 1) q =
          a :: drainAux n { messages := q.messages.dropLast, size := q.size - 1 } := by
        simp [drainAux, EventMessageQueue.pop, hl]
      have hlen : q.messages.dropLast.length ≤ n := by
        have := q.messages.length_dropLast
        omega
      rw [hstep, ih { messages := q.messages.dropLast, size := q.size - 1 } hlen]
      conv_rhs => rw [hdec]
      simp

/-- A pushed message whose time is at most every pending time is returned by
the very next pop, and the rest of the queue is exactly as before the push:
among equal times, the most recently inserted instruction is yielded first. -/
theorem push_min_pop {q : EventMessageQueue}
    (hs : List.Sorted timeDesc q.messages) {m : EventMessage}
    (hmin : ∀ x ∈ q.messages, m.time ≤ x.time) :
    (q.push m).pop = some (m, q) := by
  have hsorted : List.Sorted timeDesc (q.messages ++ [m]) := by
    refine List.pairwise_append.mpr ⟨hs, List.pairwise_singleton timeDesc m,
      fun x hx b hb => ?_⟩
    rw [List.mem_singleton.mp hb]
    exact hmin x hx
  have hpush : (q.push m).messages = q.messages ++ [m] := by
    simp [EventMessageQueue.push, List.Sorted.insertionSort_eq hsorted]
  have hsize : (q.push m).size = q.size + 1 := rfl
  simp only [EventMessageQueue.pop, hpush, hsize, List.getLast?_concat,
    List.dropLast_concat, Nat.add_sub_cancel]

/-- C1 amended: for every sequence of push and pop operations on the
Instruction Queue, repeated pops yield the stored instructions in
non-decreasing time order, and among instructions sharing a time the most
recently inserted is yielded first (last-in-first-out among ties): a pushed
instruction whose time is at most every pending time is returned by the next
pop ahead of any equal-time older entries. -/
theorem queue_ordering (ops : List QOp) :
    List.Pairwise (fun a b : EventMessage => a.time ≤ b.time)
      (drain (applyOps ops)) ∧
    ∀ m : EventMessage, (∀ x ∈ (applyOps ops).messages, m.time ≤ x.time) →
      ((applyOps ops).push m).pop = some (m, applyOps ops) := by
  have hs := sorted_applyOps ops
  constructor
  · rw [drain, drainAux_eq_reverse (applyOps ops).messages.length (applyOps ops)
      (Nat.le_refl _), List.pairwise_reverse]
    exact hs
  · intro m hmin
    exact push_min_pop hs hmin

/-- Witness for C1: after pushing `Arrive@1`, pushing `CallToServe@1` (an
equal-time tie) and popping returns the `CallToServe` first. -/
theorem queue_ordering_witness :
    (∀ x ∈ (applyOps
        [QOp.push { event_message_type := EventMessageType.Arrive, time := 1 }]).messages,
      ({ event_message_type := EventMessageType.CallToServe, time := 1 } :
        EventMessage).time ≤ x.time) ∧
    ((applyOps
        [QOp.push { event_message_type := EventMessageType.Arrive, time := 1 }]).push
        { event_message_type := EventMessageType.CallToServe, time := 1 }).pop =
      some ({ event_message_type := EventMessageType.CallToServe, time := 1 },
        applyOps
          [QOp.push { event_message_type := EventMessageType.Arrive, time := 1 }]) :=
  ⟨by decide,
    (queue_ordering
        [QOp.push { event_message_type := EventMessageType.Arrive, time := 1 }]).2
      { event_message_type := EventMessageType.CallToServe, time := 1 } (by decide)⟩

/-! ### Helper lemmas about pushes, folds and the driver loop -/

/-- The vector after a push is a permutation of the old vector with the new
message appended. -/
theorem push_perm (q : EventMessageQueue) (f : EventMessage) :
    (q.push f).messages.Perm (q.messages ++ [f]) :=
  List.perm_insertionSort timeDesc (q.messages ++ [f])

/-- Membership in a queue after a push. -/
theorem mem_push {q : EventMessageQueue} {f x : EventMessage} :
    x ∈ (q.push f).messages ↔ x ∈ q.messages ∨ x = f := by
  rw [(push_perm q f).mem_iff]
  simp

/-- `countExits` of a singleton `Arrive`. -/
theorem countExits_arrive (t : Time) :
    countExits [{ event_message_type := EventMessageType.Arrive, time := t }] = 0 := rfl

/-- `countExits` of a singleton `CallToServe`. -/
theorem countExits_cts (t : Time) :
    countExits [{ event_message_type := EventMessageType.CallToServe, time := t }] = 0 := rfl

/-- `countExits` of a singleton `Exit`. -/
theorem countExits_exit (t : Time) :
    countExits [{ event_message_type := EventMessageType.Exit, time := t }] = 1 := rfl

/-- `countExits` distributes over append. -/
theorem countExits_append (l1 l2 : List EventMessage) :
    countExits (l1 ++ l2) = countExits l1 + countExits l2 := by
  unfold countExits
  rw [List.filter_append, List.length_append]

/-- A push adds the pushed message's `Exit` count. -/
theorem countExits_push (q : EventMessageQueue) (f : EventMessage) :
    countExits (q.push f).messages = countExits q.messages + countExits [f] := by
  unfold countExits
  rw [List.Perm.length_eq (List.Perm.filter _ (push_perm q f)), List.filter_append,
    List.length_append]

/-- Folding pushes adds the pushed messages' `Exit` count. -/
theorem countExits_foldl_push :
    ∀ (fs : List EventMessage) (q : EventMessageQueue),
      countExits ((fs.foldl (fun acc em => acc.push em) q)).messages =
        countExits q.messages + countExits fs := by
  intro fs
  induction fs with
  | nil => intro q; simp [countExits]
  | cons f rest ih =>
    intro q
    have hc : countExits (f :: rest) = countExits [f] + countExits rest :=
      countExits_append [f] rest
    rw [List.foldl_cons, ih (q.push f), countExits_push, hc]
    omega

/-- `queueWeight` distributes over append. -/
theorem queueWeight_append (l1 l2 : List EventMessage) :
    queueWeight (l1 ++ l2) = queueWeight l1 + queueWeight l2 := by
  unfold queueWeight
  rw [List.map_append, List.sum_append]

/-- A push adds the pushed message's weight. -/
theorem queueWeight_push (q : EventMessageQueue) (f : EventMessage) :
    queueWeight (q.push f).messages =
      queueWeight q.messages + msgWeight f.event_message_type := by
  unfold queueWeight
  rw [List.Perm.sum_eq (List.Perm.map _ (push_perm q f)), List.map_append, List.sum_append]
  simp

/-- Folding pushes adds the pushed messages' weight. -/
theorem queueWeight_foldl_push :
    ∀ (fs : List EventMessage) (q : EventMessageQueue),
      queueWeight ((fs.foldl (fun acc em => acc.push em) q)).messages =
        queueWeight q.messages + queueWeight fs := by
  intro fs
  induction fs with
  | nil => intro q; simp [queueWeight]
  | cons f rest ih =>
    intro q
    have hc : queueWeight (f :: rest) =
        msgWeight f.event_message_type + queueWeight rest := by
      simp [queueWeight]
    rw [List.foldl_cons, ih (q.push f), queueWeight_push, hc]
    omega

/-- Folding pushes preserves sortedness. -/
theorem sorted_foldl_push :
    ∀ (fs : List EventMessage) (q : EventMessageQueue),
      List.Sorted timeDesc q.messages →
      List.Sorted timeDesc ((fs.foldl (fun acc em => acc.push em) q)).messages := by
  intro fs
  induction fs with
  | nil => intro q h; exact h
  | cons f rest ih => intro q h; exact ih (q.push f) (sorted_push q f)

/-- Membership after folding pushes. -/
theorem mem_foldl_push :
    ∀ (fs : List EventMessage) (q : EventMessageQueue) (x : EventMessage),
      x ∈ ((fs.foldl (fun acc em => acc.push em) q)).messages ↔
        x ∈ q.messages ∨ x ∈ fs := by
  intro fs
  induction fs with
  | nil => intro q x; simp
  | cons f rest ih =>
    intro q x
    rw [List.foldl_cons, ih (q.push f)]
    rw [mem_push, List.mem_cons]
    tauto

/-- The seeded queue is sorted. -/
theorem sorted_seedArrivals (times : List Time) :
    List.Sorted timeDesc (seedArrivals times).messages := by
  unfold seedArrivals
  suffices h : ∀ (ts : List Time) (q : EventMessageQueue),
      List.Sorted timeDesc q.messages →
      List.Sorted timeDesc
        ((ts.foldl (fun acc t =>
          acc.push { event_message_type := EventMessageType.Arrive, time := t }) q)).messages from
    h times EventMessageQueue.new List.sorted_nil
  intro ts
  induction ts with
  | nil => intro q h; exact h
  | cons t rest ih => intro q h; exact ih (q.push _) (sorted_push q _)

/-- The seeded queue holds no `Exit` instruction. -/
theorem countExits_seedArrivals (times : List Time) :
    countExits (seedArrivals times).messages = 0 := by
  unfold seedArrivals
  suffices h : ∀ (ts : List Time) (q : EventMessageQueue),
      countExits ((ts.foldl (fun acc t =>
        acc.push { event_message_type := EventMessageType.Arrive, time := t }) q)).messages =
      countExits q.messages from by
    rw [h times EventMessageQueue.new]; rfl
  intro ts
  induction ts with
  | nil => intro q; rfl
  | cons t rest ih =>
    intro q
    rw [List.foldl_cons, ih (q.push _), countExits_push, countExits_arrive]
    omega

/-- Applying the loop body once more applies `optStep` on the outside. -/
theorem runSteps_succ_apply :
    ∀ (n : Nat) (c : SimConfig), runSteps (n + 1) c = optStep (runSteps n c) := by
  intro n
  induction n with
  | zero => intro c; rfl
  | succ n ih => intro c; exact ih (optStep c)

/-- A run with an empty Instruction Queue stays put. -/
theorem runSteps_of_empty :
    ∀ (n : Nat) (c : SimConfig), c.emq.messages = [] → runSteps n c = c := by
  intro n
  induction n with
  | zero => intro c _; rfl
  | succ n ih =>
    intro c h
    have hnone : stepConfig c = none := stepConfig_eq_none_iff.mpr h
    have hid : optStep c = c := by simp [optStep, hnone]
    show runSteps n (optStep c) = c
    rw [hid]
    exact ih c h

/-! ### Reachability invariants of the driver loop -/

/-- Unfolding the loop body when the queue is nonempty. -/
theorem optStep_char {c : SimConfig} {m : EventMessage}
    (h : c.emq.messages.getLast? = some m) :
    optStep c =
      { emq := (handle_message m c.state).2.1.foldl (fun acc em => acc.push em)
          { messages := c.emq.messages.dropLast, size := c.emq.size - 1 }
        state := (handle_message m c.state).1.set_time m.time
        log := (handle_message m c.state).2.2.foldl (fun acc e => acc.push e) c.log } := by
  simp [optStep, stepConfig_char h]

/-- The Transition Function keeps both counts within their capacities. -/
theorem handle_message_bounds (m : EventMessage) (s : QueueState)
    (h1 : s.buffer_count ≤ s.buffer_capacity)
    (h2 : s.server_count ≤ s.server_capacity) :
    (handle_message m s).1.buffer_count ≤ (handle_message m s).1.buffer_capacity ∧
    (handle_message m s).1.server_count ≤ (handle_message m s).1.server_capacity := by
  obtain ⟨mt, mtime⟩ := m
  cases mt with
  | Arrive =>
    cases hb : s.can_buffer with
    | false => simp [handle_message, hb]; omega
    | true =>
      have hlt : s.buffer_count < s.buffer_capacity := by
        simpa [QueueState.can_buffer] using hb
      simp [handle_message, hb, QueueState.inc_buffer]
      omega
  | CallToServe =>
    cases hb : s.can_serve with
    | false => simp [handle_message, hb]; omega
    | true =>
      have hts : 0 < s.buffer_count ∧ s.server_count < s.server_capacity := by
        simpa [QueueState.can_serve] using hb
      obtain ⟨hb1, hb2⟩ := hts
      simp [handle_message, hb, QueueState.dec_buffer, QueueState.inc_server]
      omega
  | Exit =>
    simp [handle_message, QueueState.dec_server]
    omega

/-- One loop iteration keeps both counts within their capacities. -/
theorem optStep_bounds {c : SimConfig}
    (h : c.state.buffer_count ≤ c.state.buffer_capacity ∧
      c.state.server_count ≤ c.state.server_capacity) :
    (optStep c).state.buffer_count ≤ (optStep c).state.buffer_capacity ∧
    (optStep c).state.server_count ≤ (optStep c).state.server_capacity := by
  cases hl : c.emq.messages.getLast? with
  | none =>
    have hnone : stepConfig c = none :=
      stepConfig_eq_none_iff.mpr (List.getLast?_eq_none_iff.mp hl)
    have hid : optStep c = c := by simp [optStep, hnone]
    rw [hid]
    exact h
  | some m =>
    rw [optStep_char hl]
    simpa [QueueState.set_time] using handle_message_bounds m c.state h.1 h.2

/-- Any number of loop iterations keeps both counts within their
capacities. -/
theorem runSteps_bounds (n : Nat) :
    ∀ c : SimConfig,
      c.state.buffer_count ≤ c.state.buffer_capacity ∧
      c.state.server_count ≤ c.state.server_capacity →
      (runSteps n c).state.buffer_count ≤ (runSteps n c).state.buffer_capacity ∧
      (runSteps n c).state.server_count ≤ (runSteps n c).state.server_capacity := by
  induction n with
  | zero => intro c h; exact h
  | succ n ih => intro c h; exact ih (optStep c) (optStep_bounds h)

/-- C3: in every state reachable by driver steps from a constructed initial
state with a queue seeded with `Arrive` instructions,
`0 ≤ buffer_count ≤ buffer_capacity` and
`0 ≤ server_count ≤ server_capacity`. -/
theorem reachable_bounds (bcap scap dur : Nat) (times : List Time) (n : Nat) :
    0 ≤ (runSteps n (initConfig bcap scap dur times)).state.buffer_count ∧
    (runSteps n (initConfig bcap scap dur times)).state.buffer_count ≤
      (runSteps n (initConfig bcap scap dur times)).state.buffer_capacity ∧
    0 ≤ (runSteps n (initConfig bcap scap dur times)).state.server_count ∧
    (runSteps n (initConfig bcap scap dur times)).state.server_count ≤
      (runSteps n (initConfig bcap scap dur times)).state.server_capacity := by
  have h := runSteps_bounds n (initConfig bcap scap dur times)
    ⟨Nat.zero_le bcap, Nat.zero_le scap⟩
  exact ⟨Nat.zero_le _, h.1, Nat.zero_le _, h.2⟩

/-- When the Exit-scheduling `u32` addition cannot wrap for the triggering
instruction, every follow-up is scheduled at or after the triggering
instruction's time. -/
theorem handle_message_followup_time (m : EventMessage) (s : QueueState)
    (hw : m.time + s.server_duration < u32Mod) :
    ∀ f ∈ (handle_message m s).2.1, m.time ≤ f.time := by
  obtain ⟨mt, mtime⟩ := m
  cases mt with
  | Arrive => cases hb : s.can_buffer <;> simp [handle_message, hb]
  | CallToServe =>
    cases hb : s.can_serve <;>
      simp [handle_message, hb, Nat.mod_eq_of_lt hw, Nat.le_add_right]
  | Exit => simp [handle_message]

/-- When no pending instruction can make the Exit-scheduling addition wrap,
one loop iteration preserves queue sortedness, keeps every pending time at
or after the state's time, and never moves the state's time backward. -/
theorem optStep_time_mono {c : SimConfig} (hw : noWrap c)
    (hs : List.Sorted timeDesc c.emq.messages)
    (ht : ∀ x ∈ c.emq.messages, c.state.time ≤ x.time) :
    List.Sorted timeDesc (optStep c).emq.messages ∧
    (∀ x ∈ (optStep c).emq.messages, (optStep c).state.time ≤ x.time) ∧
    c.state.time ≤ (optStep c).state.time := by
  cases hl : c.emq.messages.getLast? with
  | none =>
    have hnone : stepConfig c = none :=
      stepConfig_eq_none_iff.mpr (List.getLast?_eq_none_iff.mp hl)
    have hid : optStep c = c := by simp [optStep, hnone]
    rw [hid]
    exact ⟨hs, ht, Nat.le_refl _⟩
  | some m =>
    have hmin : ∀ x ∈ c.emq.messages, m.time ≤ x.time := sorted_getLast_min hs hl
    have hmem : m ∈ c.emq.messages := by
      rw [getLast?_decomp hl]
      exact List.mem_append_right _ (List.mem_singleton_self m)
    rw [optStep_char hl]
    refine ⟨?_, ?_, ?_⟩
    · exact sorted_foldl_push _ _
        (List.Pairwise.sublist (List.dropLast_sublist _) hs)
    · intro x hx
      simp only [QueueState.set_time]
      rcases (mem_foldl_push _ _ x).mp hx with hx2 | hx2
      · exact hmin x ((List.dropLast_sublist c.emq.messages).subset hx2)
      · exact handle_message_followup_time m c.state (hw m hmem) x hx2
    · simp only [QueueState.set_time]
      exact ht m hmem

/-- Any number of loop iterations, none of which can wrap, preserves
sortedness and the lower bound of pending times by the state's time. -/
theorem runSteps_time_inv (n : Nat) :
    ∀ c : SimConfig,
      (∀ k, k ≤ n → noWrap (runSteps k c)) →
      List.Sorted timeDesc c.emq.messages →
      (∀ x ∈ c.emq.messages, c.state.time ≤ x.time) →
      List.Sorted timeDesc (runSteps n c).emq.messages ∧
      ∀ x ∈ (runSteps n c).emq.messages, (runSteps n c).state.time ≤ x.time := by
  induction n with
  | zero => intro c _ hs ht; exact ⟨hs, ht⟩
  | succ n ih =>
    intro c hw hs ht
    have h1 := optStep_time_mono (hw 0 (Nat.zero_le _)) hs ht
    exact ih (optStep c) (fun k hk => hw (k + 1) (Nat.succ_le_succ hk)) h1.1 h1.2.1

/-- C7 counterexample: capacities 1/1, `server_duration = u32::MAX`, seeded
with `Arrive@1`.  The `Arrive@1` and its `CallToServe@1` set `state.time` to
1, but the `Exit` is scheduled at the wrapped `u32` time
`(1 + 4294967295) % 2^32 = 0`, and processing it moves `state.time`
backwards from 1 to 0 (a debug build panics at the scheduling addition
instead), refuting non-decreasing time over all runs. -/
theorem monotone_time_counterexample :
    (runSteps 2 (initConfig 1 1 4294967295 [1])).state.time = 1 ∧
    (runSteps 3 (initConfig 1 1 4294967295 [1])).state.time = 0 ∧
    ¬((runSteps 2 (initConfig 1 1 4294967295 [1])).state.time ≤
      (runSteps 3 (initConfig 1 1 4294967295 [1])).state.time) := by decide

/-- C7 amended: across consecutive driver steps of a run started from a
seeded queue and the initial state, `state.time` is non-decreasing, provided
the Exit-scheduling `u32` addition cannot wrap at any visited configuration
(every pending time plus `server_duration` stays below `2^32`). -/
theorem monotone_time (bcap scap dur : Nat) (times : List Time) (n : Nat)
    (hw : ∀ k, k ≤ n → noWrap (runSteps k (initConfig bcap scap dur times))) :
    (runSteps n (initConfig bcap scap dur times)).state.time ≤
      (runSteps (n + 1) (initConfig bcap scap dur times)).state.time := by
  have h0 : List.Sorted timeDesc (initConfig bcap scap dur times).emq.messages :=
    sorted_seedArrivals times
  have ht0 : ∀ x ∈ (initConfig bcap scap dur times).emq.messages,
      (initConfig bcap scap dur times).state.time ≤ x.time :=
    fun x _ => Nat.zero_le x.time
  have hinv := runSteps_time_inv n (initConfig bcap scap dur times)
    (fun k hk => hw k hk) h0 ht0
  rw [runSteps_succ_apply]
  exact (optStep_time_mono (hw n (Nat.le_refl n)) hinv.1 hinv.2).2.2

/-- Witness for C7: a small non-wrapping run (duration 10, one `Arrive@0`)
where the hypothesis holds and time indeed does not decrease. -/
theorem monotone_time_witness :
    (∀ k, k ≤ 1 → noWrap (runSteps k (initConfig 1 1 10 [0]))) ∧
    (runSteps 1 (initConfig 1 1 10 [0])).state.time ≤
      (runSteps 2 (initConfig 1 1 10 [0])).state.time :=
  ⟨by decide, monotone_time 1 1 10 [0] 1 (by decide)⟩

/-- One loop iteration preserves "`server_count` equals the number of
pending `Exit` instructions". -/
theorem optStep_exits {c : SimConfig}
    (h : c.state.server_count = countExits c.emq.messages) :
    (optStep c).state.server_count = countExits (optStep c).emq.messages := by
  cases hl : c.emq.messages.getLast? with
  | none =>
    have hnone : stepConfig c = none :=
      stepConfig_eq_none_iff.mpr (List.getLast?_eq_none_iff.mp hl)
    have hid : optStep c = c := by simp [optStep, hnone]
    rw [hid]
    exact h
  | some m =>
    have hsplit : countExits c.emq.messages =
        countExits c.emq.messages.dropLast + countExits [m] := by
      conv_lhs => rw [getLast?_decomp hl]
      exact countExits_append _ _
    rw [optStep_char hl]
    obtain ⟨mt, mtime⟩ := m
    cases mt with
    | Arrive =>
      rw [countExits_arrive] at hsplit
      cases hb : c.state.can_buffer with
      | true =>
        simp [handle_message, hb, QueueState.set_time, QueueState.inc_buffer,
          countExits_push, countExits_cts]
        omega
      | false =>
        simp [handle_message, hb, QueueState.set_time]
        omega
    | CallToServe =>
      rw [countExits_cts] at hsplit
      cases hb : c.state.can_serve with
      | true =>
        simp [handle_message, hb, QueueState.set_time, QueueState.dec_buffer,
          QueueState.inc_server, countExits_push, countExits_exit]
        omega
      | false =>
        simp [handle_message, hb, QueueState.set_time]
        omega
    | Exit =>
      rw [countExits_exit] at hsplit
      simp [handle_message, QueueState.set_time, QueueState.dec_server,
        countExits_push, countExits_cts]
      omega

/-- Any number of loop iterations preserves "`server_count` equals the
number of pending `Exit` instructions". -/
theorem runSteps_exits (n : Nat) :
    ∀ c : SimConfig,
      c.state.server_count = countExits c.emq.messages →
      (runSteps n c).state.server_count = countExits (runSteps n c).emq.messages := by
  induction n with
  | zero => intro c h; exact h
  | succ n ih => intro c h; exact ih (optStep c) (optStep_exits h)

/-- C10: in every run seeded only with `Arrive` instructions, at the start
of every step `server_count` equals the number of pending `Exit`
instructions; hence when the popped instruction is an `Exit`,
`server_count ≥ 1` and the unconditional decrement cannot underflow. -/
theorem server_count_exits (bcap scap dur : Nat) (times : List Time) (n : Nat) :
    (runSteps n (initConfig bcap scap dur times)).state.server_count =
      countExits (runSteps n (initConfig bcap scap dur times)).emq.messages ∧
    ∀ (m : EventMessage) (emq2 : EventMessageQueue),
      (runSteps n (initConfig bcap scap dur times)).emq.pop = some (m, emq2) →
      m.event_message_type = EventMessageType.Exit →
      1 ≤ (runSteps n (initConfig bcap scap dur times)).state.server_count := by
  have h0 : (initConfig bcap scap dur times).state.server_count =
      countExits (initConfig bcap scap dur times).emq.messages := by
    simp [initConfig, QueueState.new, countExits_seedArrivals]
  have h := runSteps_exits n (initConfig bcap scap dur times) h0
  refine ⟨h, fun m emq2 hpop hexit => ?_⟩
  cases hl : (runSteps n (initConfig bcap scap dur times)).emq.messages.getLast? with
  | none => simp [EventMessageQueue.pop, hl] at hpop
  | some m2 =>
    simp only [EventMessageQueue.pop, hl, Option.some.injEq, Prod.mk.injEq] at hpop
    have hm2 : m2 = m := hpop.1
    subst hm2
    have hsplit : countExits (runSteps n (initConfig bcap scap dur times)).emq.messages =
        countExits (runSteps n (initConfig bcap scap dur times)).emq.messages.dropLast +
          countExits [m2] := by
      conv_lhs => rw [getLast?_decomp hl]
      exact countExits_append _ _
    obtain ⟨mt, mtime⟩ := m2
    cases hexit
    rw [countExits_exit] at hsplit
    omega

/-- Witness for C10: after two steps of a run with capacities 1/1 and
duration 1 seeded with `Arrive@0`, the pending instruction is an `Exit` and
`server_count = 1 ≥ 1`. -/
theorem server_count_exits_witness :
    ((runSteps 2 (initConfig 1 1 1 [0])).emq.pop =
      some ({ event_message_type := EventMessageType.Exit, time := 1 },
        { messages := [], size := 0 })) ∧
    1 ≤ (runSteps 2 (initConfig 1 1 1 [0])).state.server_count :=
  ⟨by decide,
    (server_count_exits 1 1 1 [0] 2).2
      { event_message_type := EventMessageType.Exit, time := 1 }
      { messages := [], size := 0 } (by decide) rfl⟩

/-! ### Termination of the driver loop -/

/-- Every instruction kind has weight at least 2. -/
theorem msgWeight_pos (t : EventMessageType) : 2 ≤ msgWeight t := by
  cases t <;> decide

/-- A queue of weight zero is empty. -/
theorem nil_of_queueWeight_zero {l : List EventMessage}
    (h : queueWeight l = 0) : l = [] := by
  cases l with
  | nil => rfl
  | cons m t =>
    exfalso
    have h2 := msgWeight_pos m.event_message_type
    have h3 : msgWeight m.event_message_type + queueWeight t = 0 := by
      simpa [queueWeight] using h
    omega

/-- `queueWeight` of a singleton. -/
theorem queueWeight_singleton (f : EventMessage) :
    queueWeight [f] = msgWeight f.event_message_type := by
  simp [queueWeight]

/-- Every successful step strictly decreases the termination measure: the
popped instruction's weight always exceeds the weight of its follow-ups plus
the change in buffered potential. -/
theorem stepConfig_measure {c c2 : SimConfig} (h : stepConfig c = some c2) :
    simMeasure c2 < simMeasure c := by
  cases hl : c.emq.messages.getLast? with
  | none =>
    rw [stepConfig_eq_none_iff.mpr (List.getLast?_eq_none_iff.mp hl)] at h
    simp at h
  | some m =>
    rw [stepConfig_char hl] at h
    have h2 := Option.some.inj h
    subst h2
    have hsplit : queueWeight c.emq.messages =
        queueWeight c.emq.messages.dropLast + msgWeight m.event_message_type := by
      conv_lhs => rw [getLast?_decomp hl]
      rw [queueWeight_append, queueWeight_singleton]
    obtain ⟨mt, mtime⟩ := m
    unfold simMeasure
    cases mt with
    | Arrive =>
      simp [msgWeight] at hsplit
      cases hb : c.state.can_buffer with
      | true =>
        simp [handle_message, hb, QueueState.set_time, QueueState.inc_buffer,
          queueWeight_push, msgWeight]
        omega
      | false =>
        simp [handle_message, hb, QueueState.set_time]
        omega
    | CallToServe =>
      simp [msgWeight] at hsplit
      cases hb : c.state.can_serve with
      | true =>
        have hts : 0 < c.state.buffer_count ∧
            c.state.server_count < c.state.server_capacity := by
          simpa [QueueState.can_serve] using hb
        obtain ⟨hb1, _⟩ := hts
        simp [handle_message, hb, QueueState.set_time, QueueState.dec_buffer,
          QueueState.inc_server, queueWeight_push, msgWeight]
        omega
      | false =>
        simp [handle_message, hb, QueueState.set_time]
        omega
    | Exit =>
      simp [msgWeight] at hsplit
      simp [handle_message, QueueState.set_time, QueueState.dec_server,
        queueWeight_push, msgWeight]
      omega

/-- Iterating the loop as many times as the measure empties the queue. -/
theorem measure_empties :
    ∀ (k : Nat) (c : SimConfig), simMeasure c ≤ k →
      (runSteps k c).emq.messages = [] := by
  intro k
  induction k with
  | zero =>
    intro c h
    have hq : queueWeight c.emq.messages = 0 := by
      unfold simMeasure at h; omega
    exact nil_of_queueWeight_zero hq
  | succ k ih =>
    intro c h
    cases hsc : stepConfig c with
    | none =>
      have hnil := stepConfig_eq_none_iff.mp hsc
      have hid : optStep c = c := by simp [optStep, hsc]
      show (runSteps k (optStep c)).emq.messages = []
      rw [hid, runSteps_of_empty k c hnil]
      exact hnil
    | some c2 =>
      have hlt := stepConfig_measure hsc
      have hid : optStep c = c2 := by simp [optStep, hsc]
      show (runSteps k (optStep c)).emq.messages = []
      rw [hid]
      exact ih c2 (by omega)

/-- C4: for every initial Queue State and every finite seeded batch of
`Arrive` instructions, the driver loop terminates: after at most
`simMeasure` many iterations the Instruction Queue is empty and `step`
signals completion. -/
theorem run_terminates (bcap scap dur : Nat) (times : List Time) :
    (runSteps (simMeasure (initConfig bcap scap dur times))
        (initConfig bcap scap dur times)).emq.messages = [] ∧
    stepConfig (runSteps (simMeasure (initConfig bcap scap dur times))
        (initConfig bcap scap dur times)) = none := by
  have h := measure_empties (simMeasure (initConfig bcap scap dur times))
    (initConfig bcap scap dur times) (Nat.le_refl _)
  exact ⟨h, stepConfig_eq_none_iff.mpr h⟩

end Qute
